import Mathlib

/-!
# Gaussian Process posterior evaluator: formal development

A shallow embedding, over the real numbers, of the closed-form Gaussian
Process regression routines of the notebook
`6 - Gaussian Processes/Gaussian Processes.ipynb`:

* `kernel` — the squared-exponential covariance with a noise term added
  when the two inputs are exactly equal (notebook cell defining
  `kernel(x1,x2,sigma_kernel,l,sigma_noise)`);
* `Kstar` / `GPpredict` — the posterior prediction function
  `GPpredict(x_new, x_data, y_data, Kinv)`, including the element-wise
  loop that fills the cross-covariance row `Kstar`;
* `compute_K` / `build_gram_matrix` — the Gram-matrix builder.  The
  notebook leaves its body as an exercise (the solution file is not part
  of the repository), so it is modelled from the specification.

The kernel parameters `sigma_kernel`, `l`, `sigma_noise` are free
variables of the enclosing scope in the notebook; following the
specification they are bundled into an explicit `KernelParams` value
passed to every call.
-/

open Matrix BigOperators Filter Topology

/-- The kernel parameters: signal deviation `sigma_kernel`, length scale
`l`, noise variance `sigma_noise` (the notebook refers to them as global
variables of the same names). -/
structure KernelParams where
  sigma_kernel : ℝ
  l : ℝ
  sigma_noise : ℝ

/-- The squared-exponential kernel of the notebook:
`sigma_kernel * sigma_kernel * np.exp(-(x1-x2)**2 / (2*l*l)) + sigma_noise*(x1==x2)`.
The Python boolean `x1==x2` is multiplied as `1.0` / `0.0`. -/
noncomputable def kernel (x1 x2 sigma_kernel l sigma_noise : ℝ) : ℝ :=
  sigma_kernel * sigma_kernel * Real.exp (-(x1 - x2) ^ 2 / (2 * l * l)) +
    sigma_noise * (if x1 = x2 then 1 else 0)

/-- Modelled from the spec: `compute_K(X, sigma_kernel, l, sigma_noise)`
is left as an exercise in the notebook (its solution file is not in the
repository); the spec states the output is the N×N matrix whose entry
`(i,j)` is the kernel evaluated at inputs `i` and `j`. -/
noncomputable def compute_K (p : KernelParams) {N : ℕ} (X : Fin N → ℝ) :
    Matrix (Fin N) (Fin N) ℝ :=
  fun i j => kernel (X i) (X j) p.sigma_kernel p.l p.sigma_noise

/-- The error conditions named by the spec. -/
inductive GPError
  | InvalidParameter
  | NumericalInstability
deriving DecidableEq

/-- Modelled from the spec: `build_gram_matrix(inputs, kernel_params)`
(the notebook's `compute_K` exercise, whose body is not in the
repository) rejects a length scale `l ≤ 0` and an empty training set
with `InvalidParameter` before any matrix work begins, and otherwise
returns the N×N matrix of pairwise kernel evaluations. -/
noncomputable def build_gram_matrix (p : KernelParams) (X : List ℝ) :
    Except GPError (List (List ℝ)) :=
  if p.l ≤ 0 then .error .InvalidParameter
  else if X.isEmpty then .error .InvalidParameter
  else .ok (X.map fun xi => X.map fun xj =>
    kernel xi xj p.sigma_kernel p.l p.sigma_noise)

/-- Writing one entry of the 1×N buffer `Kstar`, as the loop body
`Kstar[0,i] = kernel(x_data[i], x_new, ...)` does. -/
def writeEntry {N : ℕ} (M : Matrix (Fin 1) (Fin N) ℝ) (i : Fin N) (v : ℝ) :
    Matrix (Fin 1) (Fin N) ℝ :=
  fun r c => if c = i then v else M r c

/-- The cross-covariance row built by the notebook's loop: start from
`np.zeros((1,N))` and set entry `i` to `kernel(x_data[i], x_new, ...)`
for `i` in `range(N)`. -/
noncomputable def Kstar (p : KernelParams) {N : ℕ} (x_data : Fin N → ℝ) (x_new : ℝ) :
    Matrix (Fin 1) (Fin N) ℝ :=
  (List.finRange N).foldl
    (fun M i => writeEntry M i
      (kernel (x_data i) x_new p.sigma_kernel p.l p.sigma_noise)) 0

/-- The notebook's `GPpredict(x_new, x_data, y_data, Kinv)`:
`mu = Kstar @ Kinv @ y_data` (a length-1 array, read as a scalar) and
`sigma = kernel(x_new,x_new,...) - Kstar @ Kinv @ Kstar.T` (a 1×1 array,
read as a scalar). -/
noncomputable def GPpredict (p : KernelParams) {N : ℕ} (x_new : ℝ)
    (x_data y_data : Fin N → ℝ) (Kinv : Matrix (Fin N) (Fin N) ℝ) :
    ℝ × ℝ :=
  let Ks := Kstar p x_data x_new
  (((Ks * Kinv).mulVec y_data) 0,
   kernel x_new x_new p.sigma_kernel p.l p.sigma_noise -
     (Ks * Kinv * Ks.transpose) 0 0)

/-- The spec's cross-covariance vector: `K*[i] = k(training_inputs[i], x_new)`. -/
noncomputable def cross_cov (p : KernelParams) {N : ℕ} (X : Fin N → ℝ) (x_new : ℝ)
    (i : Fin N) : ℝ :=
  kernel (X i) x_new p.sigma_kernel p.l p.sigma_noise

/-- The spec's posterior mean: `K* · K_inverse · training_targets`
(row-vector times matrix times column-vector), written as a double sum. -/
noncomputable def spec_mean (p : KernelParams) {N : ℕ} (X y : Fin N → ℝ)
    (Kinv : Matrix (Fin N) (Fin N) ℝ) (x_new : ℝ) : ℝ :=
  ∑ i, ∑ j, cross_cov p X x_new i * Kinv i j * y j

/-- The spec's posterior variance:
`k(x_new, x_new) − K* · K_inverse · K*ᵗ`, written as a double sum. -/
noncomputable def spec_variance (p : KernelParams) {N : ℕ} (X : Fin N → ℝ)
    (Kinv : Matrix (Fin N) (Fin N) ℝ) (x_new : ℝ) : ℝ :=
  kernel x_new x_new p.sigma_kernel p.l p.sigma_noise -
    ∑ i, ∑ j, cross_cov p X x_new i * Kinv i j * cross_cov p X x_new j

section KstarLemmas

variable (p : KernelParams) {N : ℕ}

/-- After folding the loop over any list of indices, an entry written by
the loop holds its kernel value and an untouched entry keeps its initial
value. -/
lemma Kstar_foldl_apply (x_data : Fin N → ℝ) (x_new : ℝ)
    (l : List (Fin N)) (M : Matrix (Fin 1) (Fin N) ℝ) (r : Fin 1) (c : Fin N) :
    (l.foldl (fun M i => writeEntry M i
        (kernel (x_data i) x_new p.sigma_kernel p.l p.sigma_noise)) M) r c =
      if c ∈ l then kernel (x_data c) x_new p.sigma_kernel p.l p.sigma_noise
      else M r c := by
  induction l generalizing M with
  | nil => simp
  | cons a t ih =>
      simp only [List.foldl_cons, ih, List.mem_cons]
      by_cases hct : c ∈ t
      · simp [hct]
      · by_cases hca : c = a
        · simp [hct, hca, writeEntry]
        · simp [hct, hca, writeEntry]

/-- Every entry of the loop-built `Kstar` row is the kernel between the
corresponding training input and the query point. -/
lemma Kstar_apply (x_data : Fin N → ℝ) (x_new : ℝ) (r : Fin 1) (c : Fin N) :
    Kstar p x_data x_new r c =
      kernel (x_data c) x_new p.sigma_kernel p.l p.sigma_noise := by
  unfold Kstar
  rw [Kstar_foldl_apply]
  simp [List.mem_finRange]

/-- `Kstar` written entrywise as the spec's cross-covariance vector. -/
lemma Kstar_eq_cross_cov (x_data : Fin N → ℝ) (x_new : ℝ) :
    Kstar p x_data x_new = fun _ c => cross_cov p x_data x_new c := by
  funext r c
  rw [Kstar_apply]
  rfl

end KstarLemmas

/-- Symmetry of the squared-exponential kernel with its exact-equality
noise rule. -/
lemma kernel_symm (x1 x2 sk l sn : ℝ) :
    kernel x1 x2 sk l sn = kernel x2 x1 sk l sn := by
  unfold kernel
  have h1 : (x1 - x2) ^ 2 = (x2 - x1) ^ 2 := by ring
  have h2 : (if x1 = x2 then (1:ℝ) else 0) = (if x2 = x1 then (1:ℝ) else 0) := by
    by_cases h : x1 = x2
    · simp [h]
    · have h' : ¬ x2 = x1 := fun hh => h hh.symm
      simp [h, h']
  rw [h1, h2]

section PredictLemmas

variable (p : KernelParams) {N : ℕ}

/-- The mean component as a single sum against `(Kstar * Kinv)`. -/
lemma GPpredict_fst (x_new : ℝ) (X y : Fin N → ℝ)
    (Kinv : Matrix (Fin N) (Fin N) ℝ) :
    (GPpredict p x_new X y Kinv).1 =
      ∑ j, (Kstar p X x_new * Kinv) 0 j * y j := by
  unfold GPpredict
  simp [Matrix.mulVec, dotProduct]

/-- The variance component against `(Kstar * Kinv)`. -/
lemma GPpredict_snd (x_new : ℝ) (X y : Fin N → ℝ)
    (Kinv : Matrix (Fin N) (Fin N) ℝ) :
    (GPpredict p x_new X y Kinv).2 =
      kernel x_new x_new p.sigma_kernel p.l p.sigma_noise -
        ∑ j, (Kstar p X x_new * Kinv) 0 j * Kstar p X x_new 0 j := by
  unfold GPpredict
  simp only [Matrix.mul_apply, Matrix.transpose_apply]

/-- The two components returned by `GPpredict`, unfolded to double sums. -/
lemma GPpredict_eq (x_new : ℝ) (X y : Fin N → ℝ)
    (Kinv : Matrix (Fin N) (Fin N) ℝ) :
    GPpredict p x_new X y Kinv =
      (spec_mean p X y Kinv x_new, spec_variance p X Kinv x_new) := by
  refine Prod.ext ?_ ?_
  · rw [GPpredict_fst]
    unfold spec_mean
    simp only [Matrix.mul_apply, Kstar_apply]
    rw [Finset.sum_comm]
    refine Finset.sum_congr rfl fun i _ => ?_
    rw [Finset.sum_mul]
    rfl
  · rw [GPpredict_snd]
    unfold spec_variance
    congr 1
    simp only [Matrix.mul_apply, Kstar_apply, Finset.sum_mul]
    rw [Finset.sum_comm]
    refine Finset.sum_congr rfl fun i _ => ?_
    refine Finset.sum_congr rfl fun j _ => ?_
    unfold cross_cov
    ring

/-- Predicting exactly at the `i`-th training input, with any
right-inverse of the Gram matrix, returns the `i`-th target and zero
variance: the cross-covariance row is then the `i`-th row of the Gram
matrix itself. -/
lemma GPpredict_at_train (X y : Fin N → ℝ)
    (Kinv : Matrix (Fin N) (Fin N) ℝ) (i : Fin N)
    (hK : compute_K p X * Kinv = 1) :
    GPpredict p (X i) X y Kinv = (y i, 0) := by
  have hrow : ∀ j, (Kstar p X (X i) * Kinv) 0 j = (1 : Matrix (Fin N) (Fin N) ℝ) i j := by
    intro j
    rw [← hK]
    simp only [Matrix.mul_apply, Kstar_apply, compute_K]
    refine Finset.sum_congr rfl fun k _ => ?_
    congr 1
    exact kernel_symm (X k) (X i) p.sigma_kernel p.l p.sigma_noise
  have hfst : (GPpredict p (X i) X y Kinv).1 = y i := by
    rw [GPpredict_fst]
    simp only [hrow, Matrix.one_apply]
    simp [Finset.sum_ite_eq]
  have hsnd : (GPpredict p (X i) X y Kinv).2 = 0 := by
    rw [GPpredict_snd]
    simp only [hrow, Matrix.one_apply]
    rw [Finset.sum_congr rfl fun j _ => by
      rw [ite_mul, one_mul, zero_mul]]
    rw [Finset.sum_ite_eq Finset.univ i (fun j => Kstar p X (X i) 0 j)]
    simp [Kstar_apply]
  exact Prod.ext hfst hsnd

end PredictLemmas

/-- On the diagonal the exponential factor is `exp 0 = 1` and the
exact-equality test fires, so `k(x,x) = sigma_kernel² + sigma_noise`. -/
lemma kernel_diag (x sk l sn : ℝ) : kernel x x sk l sn = sk * sk + sn := by
  unfold kernel
  simp [sub_self]

section PermLemmas

variable (p : KernelParams) {N : ℕ}

/-- Reordering the training inputs permutes the Gram matrix rows and
columns together. -/
lemma compute_K_perm (X : Fin N → ℝ) (e : Equiv.Perm (Fin N)) :
    compute_K p (X ∘ e) = (compute_K p X).submatrix e e := rfl

/-- Reordering the training inputs permutes the columns of the
cross-covariance row. -/
lemma Kstar_perm (X : Fin N → ℝ) (x_new : ℝ) (e : Equiv.Perm (Fin N)) :
    Kstar p (X ∘ e) x_new = (Kstar p X x_new).submatrix id e := by
  funext r c
  rw [Kstar_apply]
  show _ = Kstar p X x_new (id r) (e c)
  rw [Kstar_apply]
  rfl

/-- A square matrix has at most one two-sided inverse: a left inverse
equals any right inverse. -/
lemma matrix_left_inv_eq_right_inv {A B C : Matrix (Fin N) (Fin N) ℝ}
    (hBA : B * A = 1) (hAC : A * C = 1) : B = C := by
  calc B = B * 1 := by rw [Matrix.mul_one]
    _ = B * (A * C) := by rw [hAC]
    _ = (B * A) * C := by rw [Matrix.mul_assoc]
    _ = 1 * C := by rw [hBA]
    _ = C := by rw [Matrix.one_mul]

/-- `GPpredict` on the reordered training set, fed the correspondingly
reordered inverse, returns exactly the original prediction. -/
lemma GPpredict_perm (x_new : ℝ) (X y : Fin N → ℝ)
    (Kinv : Matrix (Fin N) (Fin N) ℝ) (e : Equiv.Perm (Fin N)) :
    GPpredict p x_new (X ∘ e) (y ∘ e) (Kinv.submatrix e e) =
      GPpredict p x_new X y Kinv := by
  have hmul : Kstar p (X ∘ e) x_new * Kinv.submatrix e e =
      (Kstar p X x_new * Kinv).submatrix id e := by
    rw [Kstar_perm]
    exact Matrix.submatrix_mul_equiv (Kstar p X x_new) Kinv id e e
  refine Prod.ext ?_ ?_
  · rw [GPpredict_fst, GPpredict_fst, hmul]
    simp only [Matrix.submatrix_apply, Function.comp_apply, id_eq]
    exact Equiv.sum_comp e fun j => (Kstar p X x_new * Kinv) 0 j * y j
  · rw [GPpredict_snd, GPpredict_snd, hmul, Kstar_perm]
    congr 1
    simp only [Matrix.submatrix_apply, id_eq]
    exact Equiv.sum_comp e fun j => (Kstar p X x_new * Kinv) 0 j * Kstar p X x_new 0 j

end PermLemmas

section LimitLemmas

/-- For a positive length scale, the kernel between a fixed input and a
query point tends to `0` as the query point grows without bound. -/
lemma tendsto_kernel_atTop (c sk l sn : ℝ) (hl : 0 < l) :
    Tendsto (fun x => kernel c x sk l sn) atTop (𝓝 0) := by
  have hsq : Tendsto (fun x : ℝ => (c - x) ^ 2) atTop atTop := by
    have hbase : Tendsto (fun x : ℝ => x - c) atTop atTop :=
      tendsto_atTop_add_const_right atTop (-c) tendsto_id
    have hpow : Tendsto (fun x : ℝ => (x - c) ^ 2) atTop atTop :=
      (tendsto_pow_atTop two_ne_zero).comp hbase
    refine hpow.congr fun x => ?_
    ring
  have hdiv : Tendsto (fun x : ℝ => (c - x) ^ 2 / (2 * l * l)) atTop atTop :=
    hsq.atTop_div_const (by positivity)
  have hneg : Tendsto (fun x : ℝ => -((c - x) ^ 2 / (2 * l * l))) atTop atBot :=
    tendsto_neg_atTop_atBot.comp hdiv
  have hexp : Tendsto (fun x : ℝ => Real.exp (-((c - x) ^ 2 / (2 * l * l))))
      atTop (𝓝 0) := Real.tendsto_exp_atBot.comp hneg
  have hmain : Tendsto (fun x : ℝ => sk * sk *
      Real.exp (-(c - x) ^ 2 / (2 * l * l))) atTop (𝓝 0) := by
    have := (tendsto_const_nhds (x := sk * sk) (f := atTop)).mul hexp
    rw [mul_zero] at this
    refine this.congr fun x => ?_
    rw [neg_div]
  have hind : Tendsto (fun x : ℝ => sn * (if c = x then (1:ℝ) else 0))
      atTop (𝓝 0) := by
    have hev : (fun x : ℝ => sn * (if c = x then (1:ℝ) else 0)) =ᶠ[atTop]
        fun _ => (0:ℝ) := by
      filter_upwards [eventually_gt_atTop c] with x hx
      have hne : c ≠ x := ne_of_lt hx
      simp [hne]
    exact Tendsto.congr' hev.symm tendsto_const_nhds
  have := hmain.add hind
  rw [add_zero] at this
  exact this

end LimitLemmas

section ConcreteScenario

/-- The spec's concrete training inputs `X = [1.0, 2.0, 3.0]`. -/
noncomputable def X5 : Fin 3 → ℝ := ![1, 2, 3]

/-- The spec's concrete training targets `Y = [1.0, 4.0, 9.0]`. -/
noncomputable def Y5 : Fin 3 → ℝ := ![1, 4, 9]

/-- The spec's concrete kernel parameters: `sigma_kernel = 3`, `l = 1`,
`sigma_noise = 1e-6`. -/
noncomputable def p5 : KernelParams := ⟨3, 1, 1/1000000⟩

/-- Shorthand for `exp (-1/2)`, the off-by-one covariance factor of the
concrete scenario. -/
noncomputable def a5 : ℝ := Real.exp (-(1/2 : ℝ))

lemma a5_lower : (1/2 : ℝ) < a5 := by
  have h := Real.add_one_lt_exp (x := (-(1/2) : ℝ)) (by norm_num)
  unfold a5
  linarith

lemma a5_upper : a5 < 2/3 := by
  have hmul : a5 * Real.exp (1/2 : ℝ) = 1 := by
    unfold a5
    rw [← Real.exp_add]
    norm_num
  have hgt : (1/2 : ℝ) + 1 < Real.exp (1/2 : ℝ) :=
    Real.add_one_lt_exp (x := (1/2 : ℝ)) (by norm_num)
  nlinarith [Real.exp_pos (1/2 : ℝ)]

lemma exp_neg_two_eq : Real.exp (-2 : ℝ) = a5 ^ 4 := by
  unfold a5
  rw [← Real.exp_nat_mul]
  norm_num

/-- The concrete Gram matrix, written out with `a5 = exp (-1/2)`. -/
lemma compute_K5_eq : compute_K p5 X5 =
    ![![9 + 1/1000000, 9 * a5, 9 * a5 ^ 4],
      ![9 * a5, 9 + 1/1000000, 9 * a5],
      ![9 * a5 ^ 4, 9 * a5, 9 + 1/1000000]] := by
  funext i j
  fin_cases i <;> fin_cases j <;>
    norm_num [compute_K, kernel, X5, p5, Matrix.cons_val_zero, Matrix.cons_val_one,
      Matrix.head_cons, Real.exp_zero, exp_neg_two_eq, a5]

end ConcreteScenario

section Determinant

lemma a5_pos : (0:ℝ) < a5 := lt_trans (by norm_num) a5_lower

/-- The concrete Gram matrix of the spec's scenario has positive
determinant, hence is invertible. -/
lemma det_K5_pos : 0 < (compute_K p5 X5).det := by
  rw [compute_K5_eq, Matrix.det_fin_three]
  simp only [Matrix.cons_val_zero, Matrix.cons_val_one, Matrix.head_cons,
    Matrix.cons_val_two, Matrix.tail_cons]
  have h1 := a5_lower
  have h2 := a5_upper
  have hpos := a5_pos
  have hsq : a5 ^ 2 < 4/9 := by
    have := pow_lt_pow_left₀ h2 (le_of_lt hpos) (two_ne_zero)
    calc a5 ^ 2 < (2/3 : ℝ) ^ 2 := this
      _ = 4/9 := by norm_num
  have h6 : (1/64 : ℝ) < a5 ^ 6 := by
    have := pow_lt_pow_left₀ h1 (by norm_num : (0:ℝ) ≤ 1/2) (by norm_num : (6:ℕ) ≠ 0)
    calc (1/64 : ℝ) = (1/2 : ℝ) ^ 6 := by norm_num
      _ < a5 ^ 6 := this
  have h8 : a5 ^ 8 < 256/6561 := by
    have := pow_lt_pow_left₀ h2 (le_of_lt hpos) (by norm_num : (8:ℕ) ≠ 0)
    calc a5 ^ 8 < (2/3 : ℝ) ^ 8 := this
      _ = 256/6561 := by norm_num
  nlinarith [hsq, h6, h8]

lemma det_K5_unit : IsUnit (compute_K p5 X5).det :=
  isUnit_iff_ne_zero.mpr (ne_of_gt det_K5_pos)

end Determinant

section WitnessData

/-- Witness parameters with zero signal deviation and unit noise: the
Gram matrix over distinct inputs is then the identity. -/
noncomputable def pW : KernelParams := ⟨0, 1, 1⟩

/-- Witness training inputs `[0, 1]` (distinct). -/
noncomputable def XW : Fin 2 → ℝ := ![0, 1]

/-- Witness training targets `[2, 3]`. -/
noncomputable def YW : Fin 2 → ℝ := ![2, 3]

lemma computeK_W : compute_K pW XW = 1 := by
  funext i j
  fin_cases i <;> fin_cases j <;>
    norm_num [compute_K, kernel, pW, XW, Matrix.one_apply]

lemma computeK_W_swap : compute_K pW (XW ∘ Equiv.swap 0 1) = 1 := by
  funext i j
  fin_cases i <;> fin_cases j <;>
    norm_num [compute_K, kernel, pW, XW, Matrix.one_apply, Equiv.swap_apply_def]

/-- Witness parameters with zero noise. -/
noncomputable def pZ : KernelParams := ⟨1, 1, 0⟩

/-- Witness single training input `[0]`. -/
noncomputable def XZ : Fin 1 → ℝ := ![0]

lemma computeK_Z : compute_K pZ XZ = 1 := by
  funext i j
  fin_cases i <;> fin_cases j <;>
    norm_num [compute_K, kernel, pZ, XZ, Matrix.one_apply, Real.exp_zero]

end WitnessData

/-- C1: for every training set, query point, and `K_inverse` that is the
exact inverse of the Gram matrix, `GPpredict` returns
`mean = K* · K_inverse · training_targets` and
`variance = k(x_new, x_new) − K* · K_inverse · K*ᵗ`, where
`K*[i] = k(training_inputs[i], x_new)`. -/
theorem predict_returns_spec_mean_and_variance (p : KernelParams) {N : ℕ}
    (x_new : ℝ) (X y : Fin N → ℝ) (Kinv : Matrix (Fin N) (Fin N) ℝ)
    (_hK : compute_K p X * Kinv = 1) :
    GPpredict p x_new X y Kinv =
      (spec_mean p X y Kinv x_new, spec_variance p X Kinv x_new) :=
  GPpredict_eq p x_new X y Kinv

/-- Witness for C1 at the concrete inputs `pW`, `XW`, `YW`, `Kinv = 1`,
query point `5`. -/
theorem predict_returns_spec_mean_and_variance_witness :
    compute_K pW XW * (1 : Matrix (Fin 2) (Fin 2) ℝ) = 1 ∧
    GPpredict pW 5 XW YW 1 =
      (spec_mean pW XW YW 1 5, spec_variance pW XW 1 5) := by
  have hK : compute_K pW XW * (1 : Matrix (Fin 2) (Fin 2) ℝ) = 1 := by
    rw [Matrix.mul_one, computeK_W]
  exact ⟨hK, predict_returns_spec_mean_and_variance pW 5 XW YW 1 hK⟩

/-- C2: the Gram-matrix entry `(i,j)` equals
`sigma_kernel² · exp(−(x_i − x_j)² / (2·l²))`, with `sigma_noise` added
exactly when the two compared inputs are numerically identical. -/
theorem gram_entry_squared_exponential (p : KernelParams) {N : ℕ}
    (X : Fin N → ℝ) (i j : Fin N) :
    compute_K p X i j =
      p.sigma_kernel ^ 2 * Real.exp (-(X i - X j) ^ 2 / (2 * p.l ^ 2)) +
        (if X i = X j then p.sigma_noise else 0) := by
  unfold compute_K kernel
  rw [mul_ite, mul_one, mul_zero]
  have h1 : p.sigma_kernel * p.sigma_kernel = p.sigma_kernel ^ 2 := by ring
  have h2 : (2 * p.l * p.l) = 2 * p.l ^ 2 := by ring
  rw [h1, h2]

/-- C3: `build_gram_matrix` returns the `InvalidParameter` error exactly
when the length scale is `≤ 0` or the training set is empty, and
succeeds exactly when the length scale is positive and the training set
is nonempty (in particular for `l > 0`, `sigma_kernel ≥ 0`,
`sigma_noise ≥ 0`, `N ≥ 1`). -/
theorem build_gram_matrix_validation (p : KernelParams) (X : List ℝ) :
    (build_gram_matrix p X = .error .InvalidParameter ↔ p.l ≤ 0 ∨ X = []) ∧
    ((∃ G, build_gram_matrix p X = .ok G) ↔ 0 < p.l ∧ X ≠ []) := by
  unfold build_gram_matrix
  by_cases hl : p.l ≤ 0
  · rw [if_pos hl]
    constructor
    · simp [hl]
    · simp [not_lt.mpr hl]
  · rw [if_neg hl]
    by_cases hX : X.isEmpty
    · rw [if_pos hX]
      have hX' : X = [] := List.isEmpty_iff.mp hX
      constructor
      · simp [hX']
      · simp [hX']
    · rw [if_neg hX]
      have hX' : X ≠ [] := by simpa [List.isEmpty_iff] using hX
      constructor
      · simp [hl, hX']
      · exact ⟨fun _ => ⟨not_le.mp hl, hX'⟩, fun _ => ⟨_, rfl⟩⟩

/-- C4: the kernel is symmetric in its two inputs for every parameter
choice, and consequently every Gram matrix is symmetric. -/
theorem kernel_and_gram_symmetric :
    (∀ x x' sk l sn : ℝ, kernel x x' sk l sn = kernel x' x sk l sn) ∧
    (∀ (p : KernelParams) (N : ℕ) (X : Fin N → ℝ) (i j : Fin N),
      compute_K p X i j = compute_K p X j i) :=
  ⟨kernel_symm, fun p _ X i j => kernel_symm (X i) (X j) p.sigma_kernel p.l p.sigma_noise⟩

/-- C5: for the training set `X = [1, 2, 3]`, `Y = [1, 4, 9]`,
parameters `sigma_kernel = 3`, `l = 1`, `sigma_noise = 1e-6`, and the
exact inverse of the Gram matrix, `GPpredict` at `x = 2` returns mean
exactly `4` and variance exactly `0` (within any tolerance of `4.0`,
and at or below the noise floor). -/
theorem predict_concrete_scenario :
    GPpredict p5 2 X5 Y5 (compute_K p5 X5)⁻¹ = (4, 0) := by
  have hK : compute_K p5 X5 * (compute_K p5 X5)⁻¹ = 1 :=
    Matrix.mul_nonsing_inv _ det_K5_unit
  have h := GPpredict_at_train p5 X5 Y5 (compute_K p5 X5)⁻¹ 1 hK
  have hX1 : X5 1 = 2 := by simp [X5]
  have hY1 : Y5 1 = 4 := by simp [Y5]
  rw [hX1, hY1] at h
  exact h

/-- C6: `GPpredict` with a freshly computed exact inverse for a
reordered training set returns the same (mean, variance) at every query
point as for the original ordering. -/
theorem predict_invariant_under_reordering (p : KernelParams) {N : ℕ}
    (X y : Fin N → ℝ) (e : Equiv.Perm (Fin N)) (x_new : ℝ)
    (Kinv Kinv' : Matrix (Fin N) (Fin N) ℝ)
    (hK : compute_K p X * Kinv = 1)
    (_hP : compute_K p (X ∘ e) * Kinv' = 1)
    (hP2 : Kinv' * compute_K p (X ∘ e) = 1) :
    GPpredict p x_new (X ∘ e) (y ∘ e) Kinv' = GPpredict p x_new X y Kinv := by
  have hsub : compute_K p (X ∘ e) * Kinv.submatrix e e = 1 := by
    rw [compute_K_perm, Matrix.submatrix_mul_equiv, hK, Matrix.submatrix_one_equiv]
  have heq : Kinv' = Kinv.submatrix e e := matrix_left_inv_eq_right_inv hP2 hsub
  rw [heq, GPpredict_perm]

/-- Witness for C6: the swap of the two training points of `XW`, with
the identity matrix as both exact inverses. -/
theorem predict_invariant_under_reordering_witness :
    compute_K pW XW * (1 : Matrix (Fin 2) (Fin 2) ℝ) = 1 ∧
    compute_K pW (XW ∘ Equiv.swap 0 1) * (1 : Matrix (Fin 2) (Fin 2) ℝ) = 1 ∧
    (1 : Matrix (Fin 2) (Fin 2) ℝ) * compute_K pW (XW ∘ Equiv.swap 0 1) = 1 ∧
    GPpredict pW 5 (XW ∘ Equiv.swap 0 1) (YW ∘ Equiv.swap 0 1) 1 =
      GPpredict pW 5 XW YW 1 := by
  have h1 : compute_K pW XW * (1 : Matrix (Fin 2) (Fin 2) ℝ) = 1 := by
    rw [Matrix.mul_one, computeK_W]
  have h2 : compute_K pW (XW ∘ Equiv.swap 0 1) * (1 : Matrix (Fin 2) (Fin 2) ℝ) = 1 := by
    rw [Matrix.mul_one, computeK_W_swap]
  have h3 : (1 : Matrix (Fin 2) (Fin 2) ℝ) * compute_K pW (XW ∘ Equiv.swap 0 1) = 1 := by
    rw [Matrix.one_mul, computeK_W_swap]
  exact ⟨h1, h2, h3,
    predict_invariant_under_reordering pW XW YW (Equiv.swap 0 1) 5 1 1 h1 h2 h3⟩

/-- C7: with a noise-free kernel and the exact Gram inverse, predicting
at a query point identical to the `i`-th training input returns exactly
that point's target and exactly zero variance; in particular for a
training set of size 1. -/
theorem predict_at_training_point_noise_free (p : KernelParams) {N : ℕ}
    (X y : Fin N → ℝ) (Kinv : Matrix (Fin N) (Fin N) ℝ) (i : Fin N)
    (_hn : p.sigma_noise = 0) (hK : compute_K p X * Kinv = 1) :
    GPpredict p (X i) X y Kinv = (y i, 0) ∧
    (∀ (X1 y1 : Fin 1 → ℝ) (Kinv1 : Matrix (Fin 1) (Fin 1) ℝ),
      compute_K p X1 * Kinv1 = 1 →
      GPpredict p (X1 0) X1 y1 Kinv1 = (y1 0, 0)) :=
  ⟨GPpredict_at_train p X y Kinv i hK,
   fun X1 y1 Kinv1 h1 => GPpredict_at_train p X1 y1 Kinv1 0 h1⟩

/-- Witness for C7 at the zero-noise parameters `pZ` and the single
training point `XZ = [0]` with target `7`. -/
theorem predict_at_training_point_noise_free_witness :
    pZ.sigma_noise = 0 ∧
    compute_K pZ XZ * (1 : Matrix (Fin 1) (Fin 1) ℝ) = 1 ∧
    (GPpredict pZ (XZ 0) XZ ![7] 1 = (![7] 0, 0) ∧
      (∀ (X1 y1 : Fin 1 → ℝ) (Kinv1 : Matrix (Fin 1) (Fin 1) ℝ),
        compute_K pZ X1 * Kinv1 = 1 →
        GPpredict pZ (X1 0) X1 y1 Kinv1 = (y1 0, 0))) := by
  have hn : pZ.sigma_noise = 0 := rfl
  have hK : compute_K pZ XZ * (1 : Matrix (Fin 1) (Fin 1) ℝ) = 1 := by
    rw [Matrix.mul_one, computeK_Z]
  exact ⟨hn, hK,
    predict_at_training_point_noise_free pZ XZ ![7] 1 0 hn hK⟩

/-- C8: with a positive length scale, as the query point tends to
infinity the predicted mean tends to `0` and the predicted variance
tends to the prior variance `k(x,x)` (which is the same constant
`kernel q q` for every point `q`). -/
theorem predict_far_from_training (p : KernelParams) {N : ℕ}
    (X y : Fin N → ℝ) (Kinv : Matrix (Fin N) (Fin N) ℝ) (q : ℝ)
    (hl : 0 < p.l) :
    Tendsto (fun x => (GPpredict p x X y Kinv).1) atTop (𝓝 0) ∧
    Tendsto (fun x => (GPpredict p x X y Kinv).2) atTop
      (𝓝 (kernel q q p.sigma_kernel p.l p.sigma_noise)) := by
  have hcc : ∀ i : Fin N,
      Tendsto (fun x => cross_cov p X x i) atTop (𝓝 0) := fun i =>
    tendsto_kernel_atTop (X i) p.sigma_kernel p.l p.sigma_noise hl
  constructor
  · have hfun : (fun x => (GPpredict p x X y Kinv).1) =
        fun x => ∑ i, ∑ j, cross_cov p X x i * Kinv i j * y j := by
      funext x
      rw [GPpredict_eq]
      rfl
    rw [hfun]
    have hterm : ∀ (i j : Fin N),
        Tendsto (fun x => cross_cov p X x i * Kinv i j * y j) atTop (𝓝 0) := by
      intro i j
      have h := ((hcc i).mul_const (Kinv i j)).mul_const (y j)
      rw [zero_mul, zero_mul] at h
      exact h
    have hsum : Tendsto
        (fun x => ∑ i, ∑ j, cross_cov p X x i * Kinv i j * y j) atTop
        (𝓝 (∑ _i : Fin N, ∑ _j : Fin N, (0:ℝ))) := by
      refine tendsto_finset_sum _ fun i _ => ?_
      exact tendsto_finset_sum _ fun j _ => hterm i j
    simpa using hsum
  · have hfun : (fun x => (GPpredict p x X y Kinv).2) =
        fun x => (p.sigma_kernel * p.sigma_kernel + p.sigma_noise) -
          ∑ i, ∑ j, cross_cov p X x i * Kinv i j * cross_cov p X x j := by
      funext x
      rw [GPpredict_eq]
      show spec_variance p X Kinv x = _
      unfold spec_variance
      rw [kernel_diag]
    rw [hfun, kernel_diag]
    have hterm : ∀ (i j : Fin N),
        Tendsto (fun x => cross_cov p X x i * Kinv i j * cross_cov p X x j)
          atTop (𝓝 0) := by
      intro i j
      have h := ((hcc i).mul_const (Kinv i j)).mul (hcc j)
      rw [zero_mul, zero_mul] at h
      exact h
    have hsum : Tendsto
        (fun x => ∑ i, ∑ j, cross_cov p X x i * Kinv i j * cross_cov p X x j)
        atTop (𝓝 (∑ _i : Fin N, ∑ _j : Fin N, (0:ℝ))) := by
      refine tendsto_finset_sum _ fun i _ => ?_
      exact tendsto_finset_sum _ fun j _ => hterm i j
    have hzero : Tendsto
        (fun x => ∑ i, ∑ j, cross_cov p X x i * Kinv i j * cross_cov p X x j)
        atTop (𝓝 0) := by simpa using hsum
    have := (tendsto_const_nhds
        (x := p.sigma_kernel * p.sigma_kernel + p.sigma_noise)
        (f := atTop)).sub hzero
    rw [sub_zero] at this
    exact this

/-- Witness for C8: the empty training set with unit length scale. -/
theorem predict_far_from_training_witness :
    0 < pZ.l ∧
    (Tendsto (fun x => (GPpredict pZ x (![] : Fin 0 → ℝ) ![] 1).1) atTop (𝓝 0) ∧
     Tendsto (fun x => (GPpredict pZ x (![] : Fin 0 → ℝ) ![] 1).2) atTop
       (𝓝 (kernel 0 0 pZ.sigma_kernel pZ.l pZ.sigma_noise))) := by
  have hl : 0 < pZ.l := by norm_num [pZ]
  exact ⟨hl, predict_far_from_training pZ ![] ![] 1 0 hl⟩

/-- C9: `GPpredict` is a pure, deterministic function of its arguments
(query point, training inputs, training targets, Gram inverse, and
kernel parameters): two calls with equal arguments return equal
results. -/
theorem predict_deterministic (p p' : KernelParams) {N : ℕ}
    (x x' : ℝ) (X X' y y' : Fin N → ℝ)
    (K K' : Matrix (Fin N) (Fin N) ℝ)
    (hp : p = p') (hx : x = x') (hX : X = X') (hy : y = y') (hK : K = K') :
    GPpredict p x X y K = GPpredict p' x' X' y' K' := by
  rw [hp, hx, hX, hy, hK]

/-- Witness for C9 at concrete equal argument lists. -/
theorem predict_deterministic_witness :
    GPpredict pW 5 XW YW 1 = GPpredict pW 5 XW YW 1 :=
  predict_deterministic pW pW 5 5 XW XW YW YW 1 1 rfl rfl rfl rfl rfl

/-- C10: for a nonzero length scale the kernel at identical arguments is
`sigma_kernel² + sigma_noise` (the exact-equality test always fires), so
the prior-variance term of every `GPpredict` variance includes the noise
term. -/
theorem kernel_diag_includes_noise (p : KernelParams) (x : ℝ)
    (_hl : p.l ≠ 0) :
    kernel x x p.sigma_kernel p.l p.sigma_noise =
      p.sigma_kernel * p.sigma_kernel + p.sigma_noise ∧
    ∀ {N : ℕ} (x_new : ℝ) (X y : Fin N → ℝ)
      (Kinv : Matrix (Fin N) (Fin N) ℝ),
      (GPpredict p x_new X y Kinv).2 =
        p.sigma_kernel * p.sigma_kernel + p.sigma_noise -
          (Kstar p X x_new * Kinv * (Kstar p X x_new).transpose) 0 0 := by
  refine ⟨kernel_diag x p.sigma_kernel p.l p.sigma_noise, ?_⟩
  intro N x_new X y Kinv
  show kernel x_new x_new p.sigma_kernel p.l p.sigma_noise - _ = _
  rw [kernel_diag]

/-- Witness for C10 at the parameters `pZ` (length scale `1 ≠ 0`) and
query point `3`. -/
theorem kernel_diag_includes_noise_witness :
    pZ.l ≠ 0 ∧
    (kernel 3 3 pZ.sigma_kernel pZ.l pZ.sigma_noise =
      pZ.sigma_kernel * pZ.sigma_kernel + pZ.sigma_noise ∧
    ∀ {N : ℕ} (x_new : ℝ) (X y : Fin N → ℝ)
      (Kinv : Matrix (Fin N) (Fin N) ℝ),
      (GPpredict pZ x_new X y Kinv).2 =
        pZ.sigma_kernel * pZ.sigma_kernel + pZ.sigma_noise -
          (Kstar pZ X x_new * Kinv * (Kstar pZ X x_new).transpose) 0 0) := by
  have hl : pZ.l ≠ 0 := by norm_num [pZ]
  exact ⟨hl, kernel_diag_includes_noise pZ 3 hl⟩
